import Mathlib

/-!
Verification of the wsterm terminal ray caster.

The C++ source (main.cpp, math.hpp) is embedded shallowly:

* `float` arithmetic is modelled by `ℚ` (exact real-number semantics of the
  same formulas); the IEEE infinity that `std::abs(1.0f / dir)` produces for an
  axis-aligned ray (`dir = 0`) is modelled by `Option ℚ` with `none` standing
  for `+∞`.  On every value combination that the embedded code can actually
  produce these operations agree with the IEEE behaviour of the source.
* `static_cast<int>` on a float is truncation toward zero (`truncQ`).
* C++ integer `/` and `%` (truncating) are `Int.tdiv` and `Int.tmod`.
* the unbounded `while` loop of `cast_ray` is given an explicit fuel;
  termination theorems exhibit a sufficient fuel.
-/

attribute [local semireducible] Rat.add Rat.sub Rat.mul Rat.inv Rat.ofScientific

/-- `static_cast<int>` of C++ on a float value: truncation toward zero. -/
def truncQ (q : ℚ) : ℤ := if q < 0 then ⌈q⌉ else ⌊q⌋

/-- `vec2<T>` of math.hpp. -/
structure vec2 (α : Type) where
  x : α
  y : α
deriving DecidableEq, Repr

/-- `vec2i` of math.hpp. -/
abbrev vec2i := vec2 ℤ

/-- `vec2f` of math.hpp (float components modelled by `ℚ`). -/
abbrev vec2f := vec2 ℚ

instance : Add vec2f := ⟨fun v0 v1 => ⟨v0.x + v1.x, v0.y + v1.y⟩⟩

instance : Sub vec2f := ⟨fun v0 v1 => ⟨v0.x - v1.x, v0.y - v1.y⟩⟩

instance : HMul vec2f ℚ vec2f := ⟨fun v r => ⟨v.x * r, v.y * r⟩⟩

/-- `to_vec2i` of math.hpp: componentwise `static_cast<int>`. -/
def to_vec2i (v : vec2f) : vec2i := ⟨truncQ v.x, truncQ v.y⟩

/-- The static `maze` array of main.cpp: 20 rows of 21 cells each,
`'+'` is a wall cell. -/
def maze : List String := [
  "+++++++++++++++++++++",
  "+                   +",
  "+              ++++ +",
  "+      +++++     ++ +",
  "+      +++++     +  +",
  "+      +++++   +++ ++",
  "+      +++++   +    +",
  "+      +++++   + ++++",
  "+              + ++++",
  "+                   +",
  "+                   +",
  "+++++ ++++++ ++++++ +",
  "+++++ ++++++ ++++++ +",
  "+                   +",
  "+               +   +",
  "+     +             +",
  "+  +           +    +",
  "+      +   +        +",
  "+                +  +",
  "+++++++++++++++++++++"]

/-- `maze_height` of main.cpp. -/
def maze_height : ℤ := 20

/-- `is_wall(const vec2i&)` of main.cpp, `maze[pos.y][pos.x] == '+'`.
An out-of-range lookup is undefined behaviour in the source; it is modelled
as an open cell, so that the closed border of the map (and not the model)
is what stops every cast ray. -/
def is_wall (pos : vec2i) : Bool :=
  if 0 ≤ pos.x ∧ 0 ≤ pos.y then
    ((maze.getD pos.y.toNat "").toList.getD pos.x.toNat ' ') == '+'
  else false

/-- `is_wall(const vec2f&)` of main.cpp. -/
def is_wallf (pos : vec2f) : Bool := is_wall (to_vec2i pos)

/-- Less-than on ray distances; `none` is the IEEE `+∞` produced by `|1/0|`. -/
def dlt : Option ℚ → Option ℚ → Bool
  | some a, some b => a < b
  | some _, none => true
  | none, _ => false

/-- Addition on ray distances (`∞ + d = ∞`). -/
def dadd : Option ℚ → Option ℚ → Option ℚ
  | some a, some b => some (a + b)
  | _, _ => none

/-- Scaling a ray distance by a finite factor.  The source only ever scales
`∞` by a strictly positive factor (see `initialize_dda_direction`), where
IEEE also yields `∞`. -/
def dmul (a : Option ℚ) (r : ℚ) : Option ℚ := a.map (fun q => q * r)

/-- `dda_coord` of main.cpp: a grid coordinate together with the distance
travelled along the ray. -/
structure dda_coord where
  on_grid : ℤ
  distance : Option ℚ
deriving DecidableEq, Repr

/-- `dda_coord::operator+=` of main.cpp. -/
def dda_coord.add (a other : dda_coord) : dda_coord :=
  ⟨a.on_grid + other.on_grid, dadd a.distance other.distance⟩

/-- `cast_ray` of main.cpp with explicit fuel for the `while` loop;
`none` means the fuel ran out before a wall was hit.  The final component
is the grid coordinate of the hit (an integer that the source then casts
to float). -/
def cast_ray : ℕ → dda_coord → dda_coord → dda_coord → dda_coord → Bool → Option (Bool × ℤ)
  | 0, x, y, _, _, is_x_step =>
    if is_wall ⟨x.on_grid, y.on_grid⟩ then
      some (is_x_step, if is_x_step then x.on_grid else y.on_grid)
    else none
  | fuel + 1, x, y, x_step, y_step, is_x_step =>
    if is_wall ⟨x.on_grid, y.on_grid⟩ then
      some (is_x_step, if is_x_step then x.on_grid else y.on_grid)
    else if dlt x.distance y.distance then
      cast_ray fuel (x.add x_step) y x_step y_step true
    else
      cast_ray fuel x (y.add y_step) x_step y_step false

/-- `initialize_dda_direction` of main.cpp.  `|1/0|` is IEEE `+∞`, i.e.
`none`; the start distance multiplies the step distance by the offset to
the aligned cell edge, which is always strictly positive on the branch
where the step distance can be `∞`. -/
def initialize_dda_direction (pos dir : ℚ) : dda_coord × dda_coord :=
  let grid_pos : ℤ := truncQ pos
  let step_distance : Option ℚ := if dir = 0 then none else some |1 / dir|
  let step : dda_coord := ⟨if dir < 0 then -1 else 1, step_distance⟩
  let aligned_edge_offset : ℚ := if dir < 0 then pos - grid_pos else (grid_pos : ℚ) + 1 - pos
  let start : dda_coord := ⟨grid_pos, dmul step_distance aligned_edge_offset⟩
  (start, step)

/-- `wall_hit` of main.cpp. -/
structure wall_hit where
  distance : ℚ
  tx : ℚ
deriving DecidableEq, Repr

/-- `compute_wall_hit` of main.cpp (fuel-passing version); `(1 - step) >> 1`
on the step values `±1` equals `(1 - step) / 2` on `{0, 2}`. -/
def compute_wall_hit (fuel : ℕ) (pos dir : vec2f) : Option wall_hit :=
  let xp := initialize_dda_direction pos.x dir.x
  let yp := initialize_dda_direction pos.y dir.y
  match cast_ray fuel xp.1 yp.1 xp.2 yp.2 false with
  | none => none
  | some (is_x, hit_pos) =>
    let distance : ℚ :=
      if is_x then ((hit_pos : ℚ) - pos.x + (((1 - xp.2.on_grid).tdiv 2 : ℤ) : ℚ)) / dir.x
      else ((hit_pos : ℚ) - pos.y + (((1 - yp.2.on_grid).tdiv 2 : ℤ) : ℚ)) / dir.y
    let tx : ℚ := if is_x then pos.y + distance * dir.y else pos.x + distance * dir.x
    some ⟨distance, tx - ⌊tx⌋⟩

/-- The partial-block character table of `fractional_block` in main.cpp:
the empty glyph plus the seven increasing lower-block glyphs U+2581..U+2587. -/
def fb_chars : List String := [" ", "▁", "▂", "▃", "▄", "▅", "▆", "▇"]

/-- The index computed inside `fractional_block`:
`static_cast<int>(x * (chars.size() - 1e-6f))`. -/
def fb_index (x : ℚ) : ℤ := truncQ (x * (8 - 1 / 1000000))

/-- `fractional_block` of main.cpp.  The source indexes the table directly
(out of range would be undefined behaviour); the model uses a default. -/
def fractional_block (x : ℚ) : String := fb_chars.getD (fb_index x).toNat " "

/-- One `term.print_char(x, y, c, invert)` call emitted by the renderer. -/
structure cell_write where
  col : ℤ
  row : ℤ
  glyph : String
  inverted : Bool
deriving DecidableEq, Repr

/-- `exact_wall_height` in `draw_column`. -/
def exact_wall_height (screen_height : ℤ) (hit : wall_hit) : ℚ :=
  (screen_height : ℚ) / hit.distance

/-- `truncated_wall_height` in `draw_column`. -/
def truncated_wall_height (screen_height : ℤ) (hit : wall_hit) : ℤ :=
  truncQ (exact_wall_height screen_height hit)

/-- `num_whole_chars` in `draw_column`. -/
def num_whole_chars (screen_height : ℤ) (hit : wall_hit) (is_blocky : Bool) : ℤ :=
  truncated_wall_height screen_height hit -
    (if is_blocky then 0 else (truncated_wall_height screen_height hit).tmod 2)

/-- `wall_top` in `draw_column`. -/
def wall_top (screen_height : ℤ) (hit : wall_hit) (is_blocky : Bool) : ℤ :=
  (screen_height - num_whole_chars screen_height hit is_blocky).tdiv 2 - 1

/-- `wall_bottom` in `draw_column`. -/
def wall_bottom (screen_height : ℤ) (hit : wall_hit) (is_blocky : Bool) : ℤ :=
  wall_top screen_height hit is_blocky + num_whole_chars screen_height hit is_blocky + 2

/-- `wall_start` in `draw_column`. -/
def wall_start (screen_height : ℤ) (hit : wall_hit) (is_blocky : Bool) : ℤ :=
  wall_top screen_height hit is_blocky + (if is_blocky then 0 else 1)

/-- `floor_start` in `draw_column`. -/
def floor_start (screen_height : ℤ) (hit : wall_hit) (is_blocky : Bool) : ℤ :=
  wall_bottom screen_height hit is_blocky + (if is_blocky then 0 else 1)

/-- `wall_char` in `draw_column`; `0.1f` and `0.9` modelled by `1/10`, `9/10`. -/
def wall_char (hit : wall_hit) : String :=
  if hit.tx < 1 / 10 ∨ 9 / 10 < hit.tx then "│" else " "

/-- The `block_between` lambda in `draw_column`: the rows from `mn` to `mx`,
clamped to the screen and empty if the bounds cross. -/
def block_between (screen_height mn mx : ℤ) : List ℤ :=
  let mn2 := max 0 mn
  let mx2 := min screen_height mx
  (List.range (mx2 - min mn2 mx2).toNat).map (fun (i : ℕ) => min mn2 mx2 + (i : ℤ))

/-- `fraction` in `draw_column`: the left-over sub-character height split
over the top and bottom caps. -/
def fraction (screen_height : ℤ) (hit : wall_hit) (is_blocky : Bool) : ℚ :=
  1 / 2 * (exact_wall_height screen_height hit -
    (num_whole_chars screen_height hit is_blocky : ℚ))

/-- The two fractional-cap writes of `draw_column`, emitted only when
smoothing is on and the top boundary row is on screen. -/
def column_caps (x screen_height : ℤ) (hit : wall_hit) (is_blocky : Bool) : List cell_write :=
  if is_blocky = false ∧ 0 ≤ wall_top screen_height hit is_blocky then
    [⟨x, wall_top screen_height hit is_blocky,
      fractional_block (fraction screen_height hit is_blocky), false⟩,
     ⟨x, wall_bottom screen_height hit is_blocky,
      fractional_block (1 - fraction screen_height hit is_blocky), true⟩]
  else []

/-- `draw_column` of main.cpp as the sequence of cell writes it emits:
ceiling, wall body, floor, then the two fractional caps. -/
def draw_column (x screen_height : ℤ) (hit : wall_hit) (is_blocky : Bool) : List cell_write :=
  (block_between screen_height 0 (wall_top screen_height hit is_blocky)).map
    (fun y => ⟨x, y, " ", false⟩)
  ++ (block_between screen_height (wall_start screen_height hit is_blocky)
        (wall_bottom screen_height hit is_blocky)).map
    (fun y => ⟨x, y, wall_char hit, true⟩)
  ++ (block_between screen_height (floor_start screen_height hit is_blocky) screen_height).map
    (fun y => ⟨x, y, ".", false⟩)
  ++ column_caps x screen_height hit is_blocky

/-- `run_speed` of the `player` class. -/
def run_speed : ℚ := 1 / 2

/-- The `player` class state. -/
structure player where
  pos_ : vec2f
  forward_ : vec2f
  right_ : vec2f
deriving DecidableEq, Repr

/-- `player::pos`. -/
def player.pos (p : player) : vec2f := p.pos_

/-- `player::line_of_sight`. -/
def player.line_of_sight (p : player) (normalized_screen_x : ℚ) : vec2f :=
  p.forward_ + p.right_ * (2 * normalized_screen_x - 1)

/-- `player::move`: apply the displacement only if the candidate position
is not a wall. -/
def player.move (p : player) (v : vec2f) : player :=
  if is_wallf (p.pos_ + v) then p else { p with pos_ := p.pos_ + v }

/-- `player::walk`. -/
def player.walk (p : player) (factor : ℚ) : player :=
  p.move (p.forward_ * factor * run_speed)

/-- `player::strafe`. -/
def player.strafe (p : player) (factor : ℚ) : player :=
  p.move (p.right_ * factor * run_speed)

/-- `rotate` of math.hpp applied with an explicit cosine/sine pair:
the source computes `c = cos(radians)`, `s = sin(radians)`, which are not
rational, so the rational player model takes the pair as parameters. -/
def rotate (v : vec2f) (c s : ℚ) : vec2f :=
  ⟨v.x * c - v.y * s, v.x * s + v.y * c⟩

/-- `player::turn`, with the cosine/sine of `factor * turn_speed` passed
explicitly (see `rotate`). -/
def player.turn (p : player) (c s : ℚ) : player :=
  { p with forward_ := rotate p.forward_ c s, right_ := rotate p.right_ c s }

/-- The default-constructed `player` of main.cpp (`0.8f` is modelled as `4/5`). -/
def player.init : player := ⟨⟨5, 5⟩, ⟨0, 1⟩, ⟨4 / 5, 0⟩⟩

/-- One keyboard-driven mutation of the player state (the bodies of the
`'w'/'s'/'m'/'n'/'a'/'d'` events of main.cpp). -/
inductive player_op
  | walk (factor : ℚ)
  | strafe (factor : ℚ)
  | turn (c s : ℚ)

/-- Apply one operation to the player. -/
def player.apply (p : player) : player_op → player
  | .walk f => p.walk f
  | .strafe f => p.strafe f
  | .turn c s => p.turn c s

/-- Apply a sequence of operations to the player. -/
def player.apply_ops (p : player) (ops : List player_op) : player :=
  ops.foldl player.apply p

/-- `rotate` of math.hpp over the exact real numbers (for the statements that
the spec makes about exact real arithmetic). -/
noncomputable def rotateR (v : ℝ × ℝ) (radians : ℝ) : ℝ × ℝ :=
  ⟨v.1 * Real.cos radians - v.2 * Real.sin radians,
   v.1 * Real.sin radians + v.2 * Real.cos radians⟩

/-- `turn_speed` of the `player` class, over `ℝ`. -/
noncomputable def turn_speedR : ℝ := 1 / 10

/-- The `player` class state over exact real arithmetic. -/
structure playerR where
  pos_ : ℝ × ℝ
  forward_ : ℝ × ℝ
  right_ : ℝ × ℝ

/-- `player::turn` over exact real arithmetic. -/
noncomputable def playerR.turn (p : playerR) (factor : ℝ) : playerR :=
  { p with forward_ := rotateR p.forward_ (factor * turn_speedR),
           right_ := rotateR p.right_ (factor * turn_speedR) }

/-- On nonnegative rationals, C++ truncation is the floor. -/
theorem truncQ_of_nonneg {q : ℚ} (h : 0 ≤ q) : truncQ q = ⌊q⌋ := by
  unfold truncQ
  rw [if_neg (not_lt.mpr h)]

/-- Truncation never undershoots by a full unit. -/
theorem lt_truncQ_add_one (q : ℚ) : q < (truncQ q : ℤ) + 1 := by
  unfold truncQ
  split
  · have h := Int.le_ceil q
    linarith
  · have h := Int.lt_floor_add_one q
    linarith

/-- Truncation of an integer is the integer itself. -/
theorem truncQ_intCast (c : ℤ) : truncQ (c : ℚ) = c := by
  unfold truncQ
  split
  · exact Int.ceil_intCast c
  · exact Int.floor_intCast c

/-- Truncating a nonnegative half-integer drops the half. -/
theorem truncQ_intCast_add_half {c : ℤ} (h : 0 ≤ c) : truncQ ((c : ℚ) + 1 / 2) = c := by
  have h0 : (0 : ℚ) ≤ (c : ℚ) + 1 / 2 := by
    have : (0 : ℚ) ≤ (c : ℚ) := by exact_mod_cast h
    linarith
  rw [truncQ_of_nonneg h0]
  have : ((c : ℚ) + 1 / 2) = (1 / 2 : ℚ) + c := by ring
  rw [this, Int.floor_add_int]
  norm_num

/-- Every cell on the outer border of the maze is a wall (the closed-map
invariant of the source data). -/
theorem maze_border_wall {x y : ℤ} (hx0 : 0 ≤ x) (hx1 : x ≤ 20) (hy0 : 0 ≤ y)
    (hy1 : y ≤ 19) (h : x = 0 ∨ x = 20 ∨ y = 0 ∨ y = 19) : is_wall ⟨x, y⟩ = true := by
  have key : ∀ a : ℕ, a < 21 → ∀ b : ℕ, b < 20 →
      (a = 0 ∨ a = 20 ∨ b = 0 ∨ b = 19) → is_wall ⟨(a : ℤ), (b : ℤ)⟩ = true := by decide
  have hx : x = (x.toNat : ℤ) := (Int.toNat_of_nonneg hx0).symm
  have hy : y = (y.toNat : ℤ) := (Int.toNat_of_nonneg hy0).symm
  rw [hx, hy]
  exact key x.toNat (by omega) y.toNat (by omega) (by omega)

/-- A non-wall cell inside the coordinate range of the map is strictly
inside the border. -/
theorem not_wall_interior {x y : ℤ} (hx0 : 0 ≤ x) (hx1 : x ≤ 20) (hy0 : 0 ≤ y)
    (hy1 : y ≤ 19) (h : is_wall ⟨x, y⟩ = false) :
    1 ≤ x ∧ x ≤ 19 ∧ 1 ≤ y ∧ y ≤ 18 := by
  by_contra hc
  have hb : x = 0 ∨ x = 20 ∨ y = 0 ∨ y = 19 := by omega
  rw [maze_border_wall hx0 hx1 hy0 hy1 hb] at h
  exact absurd h (by simp)

/-- Fuel needed by `cast_ray`: steps remaining until each axis reaches the
border it is marching toward. -/
def dda_measure (xg yg sx sy : ℤ) : ℕ :=
  (if sx = 1 then 20 - xg else xg).toNat + (if sy = 1 then 19 - yg else yg).toNat

/-- The DDA loop always halts on a wall when started inside the map
coordinate range, and the hit coordinate is the start coordinate of the
deciding axis advanced by at least one step (unless the start cell itself
is a wall).  The flag of the deciding axis also certifies that this axis
had a finite step distance (for `x`), or that an infinite `y` step distance
can only decide together with an infinite `x` step distance. -/
theorem cast_ray_spec : ∀ (fuel : ℕ) (x y x_step y_step : dda_coord) (b : Bool),
    (x_step.on_grid = 1 ∨ x_step.on_grid = -1) →
    (y_step.on_grid = 1 ∨ y_step.on_grid = -1) →
    0 ≤ x.on_grid → x.on_grid ≤ 20 → 0 ≤ y.on_grid → y.on_grid ≤ 19 →
    (x.distance = none ↔ x_step.distance = none) →
    (y.distance = none ↔ y_step.distance = none) →
    dda_measure x.on_grid y.on_grid x_step.on_grid y_step.on_grid ≤ fuel →
    ∃ r g, cast_ray fuel x y x_step y_step b = some (r, g) ∧
      ((r = true ∧ x_step.distance ≠ none ∧
          ∃ k : ℕ, 1 ≤ k ∧ g = x.on_grid + k * x_step.on_grid) ∨
       (r = false ∧ (y_step.distance ≠ none ∨ x_step.distance = none) ∧
          ∃ k : ℕ, 1 ≤ k ∧ g = y.on_grid + k * y_step.on_grid) ∨
       (r = b ∧ is_wall ⟨x.on_grid, y.on_grid⟩ = true ∧
          g = if b then x.on_grid else y.on_grid)) := by
  intro fuel
  induction fuel with
  | zero =>
    intro x y xs ys b hsx hsy hx0 hx1 hy0 hy1 hxd hyd hm
    have hw : is_wall ⟨x.on_grid, y.on_grid⟩ = true := by
      apply maze_border_wall hx0 hx1 hy0 hy1
      unfold dda_measure at hm
      rcases hsx with h1 | h1 <;> rw [h1] at hm <;> omega
    refine ⟨b, if b then x.on_grid else y.on_grid, ?_, ?_⟩
    · simp [cast_ray, hw]
    · exact Or.inr (Or.inr ⟨rfl, hw, rfl⟩)
  | succ n ih =>
    intro x y xs ys b hsx hsy hx0 hx1 hy0 hy1 hxd hyd hm
    by_cases hw : is_wall ⟨x.on_grid, y.on_grid⟩ = true
    · refine ⟨b, if b then x.on_grid else y.on_grid, ?_, ?_⟩
      · simp [cast_ray, hw]
      · exact Or.inr (Or.inr ⟨rfl, hw, rfl⟩)
    · have hnw : is_wall ⟨x.on_grid, y.on_grid⟩ = false := by
        simpa using hw
      obtain ⟨hxi1, hxi2, hyi1, hyi2⟩ := not_wall_interior hx0 hx1 hy0 hy1 hnw
      by_cases hstep : dlt x.distance y.distance = true
      · -- the loop advances x
        have hxfin : x.distance ≠ none := by
          intro hnone
          rw [hnone] at hstep
          simp [dlt] at hstep
        have hxsfin : xs.distance ≠ none := fun h => hxfin (hxd.mpr h)
        obtain ⟨xv, hxv⟩ := Option.ne_none_iff_exists'.mp hxfin
        obtain ⟨sv, hsv⟩ := Option.ne_none_iff_exists'.mp hxsfin
        have hgrid : (x.add xs).on_grid = x.on_grid + xs.on_grid := rfl
        have hdist : (x.add xs).distance = some (xv + sv) := by
          simp [dda_coord.add, dadd, hxv, hsv]
        have hxd' : (x.add xs).distance = none ↔ xs.distance = none := by
          rw [hdist, hsv]
          simp
        have hx0' : 0 ≤ (x.add xs).on_grid := by rw [hgrid]; rcases hsx with h | h <;> omega
        have hx1' : (x.add xs).on_grid ≤ 20 := by rw [hgrid]; rcases hsx with h | h <;> omega
        have hm' : dda_measure (x.add xs).on_grid y.on_grid xs.on_grid ys.on_grid ≤ n := by
          rw [hgrid]
          unfold dda_measure at hm ⊢
          rcases hsx with h | h <;> rw [h] at hm ⊢ <;> simp at hm ⊢ <;> omega
        obtain ⟨r, g, heq, hcase⟩ := ih (x.add xs) y xs ys true hsx hsy hx0' hx1' hy0 hy1 hxd' hyd hm'
        refine ⟨r, g, ?_, ?_⟩
        · rw [show cast_ray (n + 1) x y xs ys b =
              cast_ray n (x.add xs) y xs ys true by simp [cast_ray, hnw, hstep]]
          exact heq
        · rcases hcase with ⟨hr, hfin, k, hk, hg⟩ | h2 | ⟨hr, hw', hg⟩
          · refine Or.inl ⟨hr, hfin, k + 1, by omega, ?_⟩
            rw [hg, hgrid]
            push_cast
            ring
          · exact Or.inr (Or.inl h2)
          · refine Or.inl ⟨hr, hxsfin, 1, le_refl 1, ?_⟩
            rw [hg]
            simp [hgrid]
      · -- the loop advances y
        have hside : ys.distance ≠ none ∨ xs.distance = none := by
          cases hyv : y.distance with
          | some v =>
            left
            intro hys
            rw [hyd.mpr hys] at hyv
            exact Option.noConfusion hyv
          | none =>
            right
            apply hxd.mp
            cases hxv : x.distance with
            | none => rfl
            | some w =>
              exfalso
              apply hstep
              rw [hxv, hyv]
              rfl
        have hgrid : (y.add ys).on_grid = y.on_grid + ys.on_grid := rfl
        have hyd' : (y.add ys).distance = none ↔ ys.distance = none := by
          cases hyv : y.distance with
          | none =>
            rw [hyd.mp hyv]
            simp [dda_coord.add, dadd, hyv, hyd.mp hyv]
          | some v =>
            have hysv : ys.distance ≠ none := by
              intro hys
              rw [hyd.mpr hys] at hyv
              exact Option.noConfusion hyv
            obtain ⟨w, hw2⟩ := Option.ne_none_iff_exists'.mp hysv
            rw [show (y.add ys).distance = some (v + w) by
              simp [dda_coord.add, dadd, hyv, hw2]]
            rw [hw2]
            simp
        have hy0' : 0 ≤ (y.add ys).on_grid := by rw [hgrid]; rcases hsy with h | h <;> omega
        have hy1' : (y.add ys).on_grid ≤ 19 := by rw [hgrid]; rcases hsy with h | h <;> omega
        have hm' : dda_measure x.on_grid (y.add ys).on_grid xs.on_grid ys.on_grid ≤ n := by
          rw [hgrid]
          unfold dda_measure at hm ⊢
          rcases hsy with h | h <;> rw [h] at hm ⊢ <;> simp at hm ⊢ <;> omega
        obtain ⟨r, g, heq, hcase⟩ := ih x (y.add ys) xs ys false hsx hsy hx0 hx1 hy0' hy1' hxd hyd' hm'
        refine ⟨r, g, ?_, ?_⟩
        · rw [show cast_ray (n + 1) x y xs ys b =
              cast_ray n x (y.add ys) xs ys false by
            simp [cast_ray, hnw]
            intro hc
            rw [hc] at hstep
            exact absurd rfl hstep]
          exact heq
        · rcases hcase with h1 | ⟨hr, hside', k, hk, hg⟩ | ⟨hr, hw', hg⟩
          · exact Or.inl h1
          · refine Or.inr (Or.inl ⟨hr, hside', k + 1, by omega, ?_⟩)
            rw [hg, hgrid]
            push_cast
            ring
          · refine Or.inr (Or.inl ⟨hr, hside, 1, le_refl 1, ?_⟩)
            rw [hg]
            simp [hgrid]

/-- The start coordinate of a DDA axis is the truncated position. -/
theorem init_start_on_grid (pos dir : ℚ) :
    (initialize_dda_direction pos dir).1.on_grid = truncQ pos := rfl

/-- The grid step of a DDA axis is `-1` for a negative direction, else `1`. -/
theorem init_step_on_grid (pos dir : ℚ) :
    (initialize_dda_direction pos dir).2.on_grid = if dir < 0 then -1 else 1 := rfl

/-- The grid step of a DDA axis is `±1`. -/
theorem init_step_sign (pos dir : ℚ) :
    (initialize_dda_direction pos dir).2.on_grid = 1 ∨
      (initialize_dda_direction pos dir).2.on_grid = -1 := by
  rw [init_step_on_grid]
  split
  · exact Or.inr rfl
  · exact Or.inl rfl

/-- The step distance of a DDA axis is infinite exactly for a zero direction. -/
theorem init_step_dist_none (pos dir : ℚ) :
    (initialize_dda_direction pos dir).2.distance = none ↔ dir = 0 := by
  show (if dir = 0 then none else some |1 / dir|) = none ↔ dir = 0
  split
  · simp [*]
  · simp [*]

/-- The start distance of a DDA axis is infinite exactly when its step
distance is. -/
theorem init_start_dist_none (pos dir : ℚ) :
    (initialize_dda_direction pos dir).1.distance = none ↔
      (initialize_dda_direction pos dir).2.distance = none := by
  show dmul (if dir = 0 then none else some |1 / dir|) _ = none ↔
    (if dir = 0 then none else some |1 / dir|) = none
  split
  · simp [dmul]
  · simp [dmul]

/-- The distance field `compute_wall_hit` builds from a loop exit `(r, g)`. -/
def chw_distance (pos dir : vec2f) (r : Bool) (g : ℤ) : ℚ :=
  if r then ((g : ℚ) - pos.x +
      (((1 - (initialize_dda_direction pos.x dir.x).2.on_grid).tdiv 2 : ℤ) : ℚ)) / dir.x
  else ((g : ℚ) - pos.y +
      (((1 - (initialize_dda_direction pos.y dir.y).2.on_grid).tdiv 2 : ℤ) : ℚ)) / dir.y

/-- The texture coordinate `compute_wall_hit` builds from a loop exit. -/
def chw_tx (pos dir : vec2f) (r : Bool) (g : ℤ) : ℚ :=
  if r then pos.y + chw_distance pos dir r g * dir.y
  else pos.x + chw_distance pos dir r g * dir.x

/-- `compute_wall_hit` in terms of the exit state of the DDA loop. -/
theorem compute_wall_hit_eq {fuel : ℕ} {pos dir : vec2f} {r : Bool} {g : ℤ}
    (heq : cast_ray fuel (initialize_dda_direction pos.x dir.x).1
      (initialize_dda_direction pos.y dir.y).1 (initialize_dda_direction pos.x dir.x).2
      (initialize_dda_direction pos.y dir.y).2 false = some (r, g)) :
    compute_wall_hit fuel pos dir =
      some ⟨chw_distance pos dir r g, chw_tx pos dir r g - ⌊chw_tx pos dir r g⌋⟩ := by
  simp only [compute_wall_hit]
  rw [heq]
  rfl

/-- C1 (amended): from a position strictly inside the closed map, on a
non-wall cell, with a unit direction, the cast terminates (fuel 41 is
enough for the source `while` loop) and returns a nonnegative distance. -/
theorem cast_interior_terminates_nonneg (pos dir : vec2f)
    (hx1 : 1 ≤ pos.x) (hx2 : pos.x < 20) (hy1 : 1 ≤ pos.y) (hy2 : pos.y < 19)
    (hnw : is_wallf pos = false) (hunit : dir.x ^ 2 + dir.y ^ 2 = 1) :
    ∃ h : wall_hit, compute_wall_hit 41 pos dir = some h ∧ 0 ≤ h.distance := by
  have hpx0 : (0 : ℚ) ≤ pos.x := le_trans zero_le_one hx1
  have hpy0 : (0 : ℚ) ≤ pos.y := le_trans zero_le_one hy1
  have hxg : (initialize_dda_direction pos.x dir.x).1.on_grid = ⌊pos.x⌋ := by
    rw [init_start_on_grid, truncQ_of_nonneg hpx0]
  have hyg : (initialize_dda_direction pos.y dir.y).1.on_grid = ⌊pos.y⌋ := by
    rw [init_start_on_grid, truncQ_of_nonneg hpy0]
  have hxlb : 1 ≤ ⌊pos.x⌋ := Int.le_floor.mpr (by exact_mod_cast hx1)
  have hxub : ⌊pos.x⌋ ≤ 19 := by
    have h20 : ⌊pos.x⌋ < 20 := Int.floor_lt.mpr (by exact_mod_cast hx2)
    omega
  have hylb : 1 ≤ ⌊pos.y⌋ := Int.le_floor.mpr (by exact_mod_cast hy1)
  have hyub : ⌊pos.y⌋ ≤ 18 := by
    have h19 : ⌊pos.y⌋ < 19 := Int.floor_lt.mpr (by exact_mod_cast hy2)
    omega
  obtain ⟨r, g, heq, hcase⟩ := cast_ray_spec 41
    (initialize_dda_direction pos.x dir.x).1 (initialize_dda_direction pos.y dir.y).1
    (initialize_dda_direction pos.x dir.x).2 (initialize_dda_direction pos.y dir.y).2 false
    (init_step_sign pos.x dir.x) (init_step_sign pos.y dir.y)
    (by rw [hxg]; omega) (by rw [hxg]; omega) (by rw [hyg]; omega) (by rw [hyg]; omega)
    (init_start_dist_none pos.x dir.x) (init_start_dist_none pos.y dir.y)
    (by
      unfold dda_measure
      rw [hxg, hyg]
      rcases init_step_sign pos.x dir.x with h | h <;>
        rcases init_step_sign pos.y dir.y with h2 | h2 <;>
          rw [h, h2] <;> norm_num <;> omega)
  refine ⟨_, compute_wall_hit_eq heq, ?_⟩
  show 0 ≤ chw_distance pos dir r g
  rcases hcase with ⟨hr, hxsfin, k, hk, hg⟩ | ⟨hr, hside, k, hk, hg⟩ | ⟨hr, hw', hg⟩
  · -- the deciding axis was x
    subst hr
    have hdx0 : dir.x ≠ 0 := fun h0 => hxsfin ((init_step_dist_none pos.x dir.x).mpr h0)
    unfold chw_distance
    rw [if_pos rfl, hg, hxg]
    by_cases hneg : dir.x < 0
    · have hsx : (initialize_dda_direction pos.x dir.x).2.on_grid = -1 := by
        rw [init_step_on_grid, if_pos hneg]
      rw [hsx]
      have htd : ((1 : ℤ) - -1).tdiv 2 = 1 := by decide
      rw [htd]
      apply div_nonneg_iff.mpr
      right
      constructor
      · have hfl : (⌊pos.x⌋ : ℚ) ≤ pos.x := Int.floor_le pos.x
        have hk1 : (1 : ℚ) ≤ (k : ℚ) := by exact_mod_cast hk
        push_cast
        linarith
      · linarith
    · have hpos : 0 < dir.x := lt_of_le_of_ne (not_lt.mp hneg) (Ne.symm hdx0)
      have hsx : (initialize_dda_direction pos.x dir.x).2.on_grid = 1 := by
        rw [init_step_on_grid, if_neg hneg]
      rw [hsx]
      have htd : ((1 : ℤ) - 1).tdiv 2 = 0 := by decide
      rw [htd]
      apply div_nonneg _ (le_of_lt hpos)
      have hfl : pos.x < (⌊pos.x⌋ : ℚ) + 1 := Int.lt_floor_add_one pos.x
      have hk1 : (1 : ℚ) ≤ (k : ℚ) := by exact_mod_cast hk
      push_cast
      linarith
  · -- the deciding axis was y
    subst hr
    have hdy0 : dir.y ≠ 0 := by
      rcases hside with h | h
      · exact fun h0 => h ((init_step_dist_none pos.y dir.y).mpr h0)
      · have hdx : dir.x = 0 := (init_step_dist_none pos.x dir.x).mp h
        intro h0
        rw [hdx, h0] at hunit
        norm_num at hunit
    unfold chw_distance
    rw [if_neg (by simp), hg, hyg]
    by_cases hneg : dir.y < 0
    · have hsy : (initialize_dda_direction pos.y dir.y).2.on_grid = -1 := by
        rw [init_step_on_grid, if_pos hneg]
      rw [hsy]
      have htd : ((1 : ℤ) - -1).tdiv 2 = 1 := by decide
      rw [htd]
      apply div_nonneg_iff.mpr
      right
      constructor
      · have hfl : (⌊pos.y⌋ : ℚ) ≤ pos.y := Int.floor_le pos.y
        have hk1 : (1 : ℚ) ≤ (k : ℚ) := by exact_mod_cast hk
        push_cast
        linarith
      · linarith
    · have hpos : 0 < dir.y := lt_of_le_of_ne (not_lt.mp hneg) (Ne.symm hdy0)
      have hsy : (initialize_dda_direction pos.y dir.y).2.on_grid = 1 := by
        rw [init_step_on_grid, if_neg hneg]
      rw [hsy]
      have htd : ((1 : ℤ) - 1).tdiv 2 = 0 := by decide
      rw [htd]
      apply div_nonneg _ (le_of_lt hpos)
      have hfl : pos.y < (⌊pos.y⌋ : ℚ) + 1 := Int.lt_floor_add_one pos.y
      have hk1 : (1 : ℚ) ≤ (k : ℚ) := by exact_mod_cast hk
      push_cast
      linarith
  · -- the start cell cannot be a wall
    exfalso
    rw [hxg, hyg] at hw'
    have : is_wallf pos = true := by
      unfold is_wallf to_vec2i
      rw [truncQ_of_nonneg hpx0, truncQ_of_nonneg hpy0]
      exact hw'
    rw [this] at hnw
    exact Bool.noConfusion hnw

/-- C1 witness: the amended theorem applied at the initial player position
with the unit direction `(3/5, 4/5)`. -/
theorem cast_interior_terminates_nonneg_witness :
    ∃ h : wall_hit, compute_wall_hit 41 ⟨5, 5⟩ ⟨3 / 5, 4 / 5⟩ = some h ∧ 0 ≤ h.distance :=
  cast_interior_terminates_nonneg ⟨5, 5⟩ ⟨3 / 5, 4 / 5⟩ (by norm_num) (by norm_num)
    (by norm_num) (by norm_num) (by decide) (by norm_num)

/-- C1 counterexample to the claim as stated: the viewer at `(12, 3.5)` is
strictly inside the map on a non-wall cell, the direction `(-1, 0)` is a
unit vector, and the cast returns `distance = 0`, not `distance > 0` (the
viewer stands exactly on the shared edge of cells `(12, 3)` and the wall
cell `(11, 3)`). -/
theorem cast_distance_zero_at_boundary :
    (1 : ℚ) ≤ 12 ∧ (12 : ℚ) < 20 ∧ (1 : ℚ) ≤ 7 / 2 ∧ (7 / 2 : ℚ) < 19 ∧
    is_wallf ⟨12, 7 / 2⟩ = false ∧ (-1 : ℚ) ^ 2 + (0 : ℚ) ^ 2 = 1 ∧
    compute_wall_hit 41 ⟨12, 7 / 2⟩ ⟨-1, 0⟩ = some ⟨0, 1 / 2⟩ ∧ ¬(0 : ℚ) < 0 := by
  refine ⟨by norm_num, by norm_num, by norm_num, by norm_num, by decide, by norm_num,
    by decide, by norm_num⟩

/-- Rounding a nonnegative-integer-plus-half down. -/
theorem floor_intCast_add_half (c : ℤ) : ⌊(c : ℚ) + 1 / 2⌋ = c := by
  rw [add_comm, Int.floor_add_int]
  norm_num

/-- `initialize_dda_direction` on a zero direction component: the step
distance is the IEEE infinity. -/
theorem init_zero (p : ℚ) :
    initialize_dda_direction p 0 = (⟨truncQ p, none⟩, ⟨1, none⟩) := by
  simp [initialize_dda_direction, dmul]

/-- `initialize_dda_direction` on direction component `1`. -/
theorem init_one (p : ℚ) :
    initialize_dda_direction p 1 =
      (⟨truncQ p, some ((truncQ p : ℚ) + 1 - p)⟩, ⟨1, some 1⟩) := by
  simp [initialize_dda_direction, dmul]

/-- `initialize_dda_direction` on direction component `-1`. -/
theorem init_neg_one (p : ℚ) :
    initialize_dda_direction p (-1) =
      (⟨truncQ p, some (p - (truncQ p : ℚ))⟩, ⟨-1, some 1⟩) := by
  norm_num [initialize_dda_direction, dmul]

/-- When the `x` axis has an infinite step distance, the DDA loop scans the
`y` axis cell by cell and stops at the first wall. -/
theorem cast_scan_y : ∀ (d fuel : ℕ), d ≤ fuel → ∀ (x y x_step y_step : dda_coord),
    x.distance = none → x_step.distance = none →
    (∀ i : ℕ, i < d → is_wall ⟨x.on_grid, y.on_grid + i * y_step.on_grid⟩ = false) →
    is_wall ⟨x.on_grid, y.on_grid + d * y_step.on_grid⟩ = true →
    cast_ray fuel x y x_step y_step false =
      some (false, y.on_grid + d * y_step.on_grid) := by
  intro d
  induction d with
  | zero =>
    intro fuel hfuel x y xs ys hx hxs hopen hwall
    norm_num at hwall ⊢
    cases fuel with
    | zero => simp [cast_ray, hwall]
    | succ n => simp [cast_ray, hwall]
  | succ d ih =>
    intro fuel hfuel x y xs ys hx hxs hopen hwall
    cases fuel with
    | zero => omega
    | succ n =>
      have hopen0 : is_wall ⟨x.on_grid, y.on_grid⟩ = false := by
        have h := hopen 0 (by omega)
        norm_num at h
        exact h
      have hstep : cast_ray (n + 1) x y xs ys false = cast_ray n x (y.add ys) xs ys false := by
        simp [cast_ray, hopen0, hx, dlt]
      rw [hstep]
      have hres := ih n (by omega) x (y.add ys) xs ys hx hxs
        (by
          intro i hi
          have h := hopen (i + 1) (by omega)
          have harg : y.on_grid + (i + 1 : ℕ) * ys.on_grid =
              (y.add ys).on_grid + i * ys.on_grid := by
            show _ = y.on_grid + ys.on_grid + _
            push_cast
            ring
          rw [harg] at h
          exact h)
        (by
          have harg : y.on_grid + (d + 1 : ℕ) * ys.on_grid =
              (y.add ys).on_grid + d * ys.on_grid := by
            show _ = y.on_grid + ys.on_grid + _
            push_cast
            ring
          rw [harg] at hwall
          exact hwall)
      rw [hres]
      have harg : (y.add ys).on_grid + d * ys.on_grid =
          y.on_grid + (d + 1 : ℕ) * ys.on_grid := by
        show y.on_grid + ys.on_grid + _ = _
        push_cast
        ring
      rw [harg]

/-- When the `y` axis has an infinite step distance and the `x` axis a
finite one, the DDA loop scans the `x` axis cell by cell and stops at the
first wall, flagged as an `x` hit. -/
theorem cast_scan_x : ∀ (d fuel : ℕ), d + 1 ≤ fuel → ∀ (x y x_step y_step : dda_coord) (b : Bool),
    y.distance = none → x.distance ≠ none → x_step.distance ≠ none →
    (∀ i : ℕ, i < d + 1 → is_wall ⟨x.on_grid + i * x_step.on_grid, y.on_grid⟩ = false) →
    is_wall ⟨x.on_grid + (d + 1 : ℕ) * x_step.on_grid, y.on_grid⟩ = true →
    cast_ray fuel x y x_step y_step b =
      some (true, x.on_grid + (d + 1 : ℕ) * x_step.on_grid) := by
  intro d
  induction d with
  | zero =>
    intro fuel hfuel x y xs ys b hy hx hxs hopen hwall
    cases fuel with
    | zero => omega
    | succ n =>
      have hopen0 : is_wall ⟨x.on_grid, y.on_grid⟩ = false := by
        have h := hopen 0 (by omega)
        norm_num at h
        exact h
      obtain ⟨xv, hxv⟩ := Option.ne_none_iff_exists'.mp hx
      have hstep : cast_ray (n + 1) x y xs ys b = cast_ray n (x.add xs) y xs ys true := by
        simp [cast_ray, hopen0, hxv, hy, dlt]
      rw [hstep]
      have hwall' : is_wall ⟨(x.add xs).on_grid, y.on_grid⟩ = true := by
        have harg : x.on_grid + (0 + 1 : ℕ) * xs.on_grid = (x.add xs).on_grid := by
          show _ = x.on_grid + xs.on_grid
          push_cast
          ring
        rw [harg] at hwall
        exact hwall
      have hfin : cast_ray n (x.add xs) y xs ys true = some (true, (x.add xs).on_grid) := by
        cases n with
        | zero => simp [cast_ray, hwall']
        | succ m => simp [cast_ray, hwall']
      rw [hfin]
      have harg : (x.add xs).on_grid = x.on_grid + (0 + 1 : ℕ) * xs.on_grid := by
        show x.on_grid + xs.on_grid = _
        push_cast
        ring
      rw [harg]
  | succ d ih =>
    intro fuel hfuel x y xs ys b hy hx hxs hopen hwall
    cases fuel with
    | zero => omega
    | succ n =>
      have hopen0 : is_wall ⟨x.on_grid, y.on_grid⟩ = false := by
        have h := hopen 0 (by omega)
        norm_num at h
        exact h
      obtain ⟨xv, hxv⟩ := Option.ne_none_iff_exists'.mp hx
      obtain ⟨sv, hsv⟩ := Option.ne_none_iff_exists'.mp hxs
      have hstep : cast_ray (n + 1) x y xs ys b = cast_ray n (x.add xs) y xs ys true := by
        simp [cast_ray, hopen0, hxv, hy, dlt]
      rw [hstep]
      have hx' : (x.add xs).distance ≠ none := by
        simp [dda_coord.add, dadd, hxv, hsv]
      have hres := ih n (by omega) (x.add xs) y xs ys true hy hx' hxs
        (by
          intro i hi
          have h := hopen (i + 1) (by omega)
          have harg : x.on_grid + (i + 1 : ℕ) * xs.on_grid =
              (x.add xs).on_grid + i * xs.on_grid := by
            show _ = x.on_grid + xs.on_grid + _
            push_cast
            ring
          rw [harg] at h
          exact h)
        (by
          have harg : x.on_grid + (d + 1 + 1 : ℕ) * xs.on_grid =
              (x.add xs).on_grid + (d + 1 : ℕ) * xs.on_grid := by
            show _ = x.on_grid + xs.on_grid + _
            push_cast
            ring
          rw [harg] at hwall
          exact hwall)
      rw [hres]
      have harg : (x.add xs).on_grid + (d + 1 : ℕ) * xs.on_grid =
          x.on_grid + (d + 1 + 1 : ℕ) * xs.on_grid := by
        show x.on_grid + xs.on_grid + _ = _
        push_cast
        ring
      rw [harg]

/-- Truncation of zero. -/
theorem truncQ_zero : truncQ 0 = 0 := by decide

/-- Truncation of one. -/
theorem truncQ_one : truncQ 1 = 1 := by decide

/-- Truncation of minus one. -/
theorem truncQ_neg_one : truncQ (-1) = -1 := by decide

/-- C2 (amended): casting from the exact center `(cx + 1/2, cy + 1/2)` of an
open cell straight along a grid axis, with the first wall cell exactly `d`
cells away, returns `distance = d - 1/2` (the exact ray distance to the
near face of that wall, a half-integer, not the integer `d`) and
`surface_offset = 1/2`, the fractional part of the perpendicular-axis
coordinate `c + 1/2` of the start position. -/
theorem axis_cast_exact (cx cy : ℤ) (d fuel : ℕ) (dir : vec2f)
    (hcx : 0 ≤ cx) (hcy : 0 ≤ cy) (hd : 1 ≤ d)
    (hdir : dir = ⟨0, 1⟩ ∨ dir = ⟨0, -1⟩ ∨ dir = ⟨1, 0⟩ ∨ dir = ⟨-1, 0⟩)
    (hopen : ∀ i : ℕ, i < d →
      is_wall ⟨cx + i * truncQ dir.x, cy + i * truncQ dir.y⟩ = false)
    (hwall : is_wall ⟨cx + d * truncQ dir.x, cy + d * truncQ dir.y⟩ = true)
    (hfuel : d ≤ fuel) :
    compute_wall_hit fuel ⟨(cx : ℚ) + 1 / 2, (cy : ℚ) + 1 / 2⟩ dir =
      some ⟨(d : ℚ) - 1 / 2, 1 / 2⟩ := by
  have htcx : truncQ ((cx : ℚ) + 1 / 2) = cx := truncQ_intCast_add_half hcx
  have htcy : truncQ ((cy : ℚ) + 1 / 2) = cy := truncQ_intCast_add_half hcy
  rcases hdir with rfl | rfl | rfl | rfl
  · -- direction (0, 1)
    have hcast : cast_ray fuel
        (initialize_dda_direction ((cx : ℚ) + 1 / 2) 0).1
        (initialize_dda_direction ((cy : ℚ) + 1 / 2) 1).1
        (initialize_dda_direction ((cx : ℚ) + 1 / 2) 0).2
        (initialize_dda_direction ((cy : ℚ) + 1 / 2) 1).2 false =
        some (false, cy + d * 1) := by
      rw [init_zero, init_one, htcx, htcy]
      exact cast_scan_y d fuel hfuel _ _ _ _ rfl rfl
        (by
          intro i hi
          have h := hopen i hi
          simpa [truncQ_zero, truncQ_one] using h)
        (by
          have h := hwall
          simpa [truncQ_zero, truncQ_one] using h)
    have hres := @compute_wall_hit_eq fuel ⟨(cx : ℚ) + 1 / 2, (cy : ℚ) + 1 / 2⟩
      ⟨0, 1⟩ false (cy + d * 1) hcast
    rw [hres]
    have hdist : chw_distance ⟨(cx : ℚ) + 1 / 2, (cy : ℚ) + 1 / 2⟩ ⟨0, 1⟩ false (cy + d * 1) =
        (d : ℚ) - 1 / 2 := by
      unfold chw_distance
      rw [if_neg (by simp)]
      show (((cy + d * 1 : ℤ) : ℚ) - ((cy : ℚ) + 1 / 2) +
        (((1 - (initialize_dda_direction ((cy : ℚ) + 1 / 2) 1).2.on_grid).tdiv 2 : ℤ) : ℚ)) / 1 = _
      rw [init_one]
      show (((cy + d * 1 : ℤ) : ℚ) - ((cy : ℚ) + 1 / 2) + (((1 - 1 : ℤ).tdiv 2 : ℤ) : ℚ)) / 1 = _
      have ht2 : ((1 : ℤ) - 1).tdiv 2 = 0 := by decide
      rw [ht2]
      push_cast
      ring
    have htx : chw_tx ⟨(cx : ℚ) + 1 / 2, (cy : ℚ) + 1 / 2⟩ ⟨0, 1⟩ false (cy + d * 1) =
        (cx : ℚ) + 1 / 2 := by
      unfold chw_tx
      rw [if_neg (by simp)]
      show (cx : ℚ) + 1 / 2 + chw_distance _ _ _ _ * 0 = _
      ring
    rw [hdist, htx, floor_intCast_add_half]
    norm_num
  · -- direction (0, -1)
    have hcast : cast_ray fuel
        (initialize_dda_direction ((cx : ℚ) + 1 / 2) 0).1
        (initialize_dda_direction ((cy : ℚ) + 1 / 2) (-1)).1
        (initialize_dda_direction ((cx : ℚ) + 1 / 2) 0).2
        (initialize_dda_direction ((cy : ℚ) + 1 / 2) (-1)).2 false =
        some (false, cy + d * (-1)) := by
      rw [init_zero, init_neg_one, htcx, htcy]
      exact cast_scan_y d fuel hfuel _ _ _ _ rfl rfl
        (by
          intro i hi
          have h := hopen i hi
          simpa [truncQ_zero, truncQ_neg_one] using h)
        (by
          have h := hwall
          simpa [truncQ_zero, truncQ_neg_one] using h)
    have hres := @compute_wall_hit_eq fuel ⟨(cx : ℚ) + 1 / 2, (cy : ℚ) + 1 / 2⟩
      ⟨0, -1⟩ false (cy + d * (-1)) hcast
    rw [hres]
    have hdist : chw_distance ⟨(cx : ℚ) + 1 / 2, (cy : ℚ) + 1 / 2⟩ ⟨0, -1⟩ false
        (cy + d * (-1)) = (d : ℚ) - 1 / 2 := by
      unfold chw_distance
      rw [if_neg (by simp)]
      show (((cy + d * (-1) : ℤ) : ℚ) - ((cy : ℚ) + 1 / 2) +
        (((1 - (initialize_dda_direction ((cy : ℚ) + 1 / 2) (-1)).2.on_grid).tdiv 2 : ℤ) : ℚ)) /
          (-1) = _
      rw [init_neg_one]
      show (((cy + d * (-1) : ℤ) : ℚ) - ((cy : ℚ) + 1 / 2) +
        (((1 - -1 : ℤ).tdiv 2 : ℤ) : ℚ)) / (-1) = _
      have ht2 : ((1 : ℤ) - -1).tdiv 2 = 1 := by decide
      rw [ht2]
      push_cast
      ring
    have htx : chw_tx ⟨(cx : ℚ) + 1 / 2, (cy : ℚ) + 1 / 2⟩ ⟨0, -1⟩ false (cy + d * (-1)) =
        (cx : ℚ) + 1 / 2 := by
      unfold chw_tx
      rw [if_neg (by simp)]
      show (cx : ℚ) + 1 / 2 + chw_distance _ _ _ _ * 0 = _
      ring
    rw [hdist, htx, floor_intCast_add_half]
    norm_num
  · -- direction (1, 0)
    obtain ⟨e, rfl⟩ : ∃ e, d = e + 1 := ⟨d - 1, by omega⟩
    have hcast : cast_ray fuel
        (initialize_dda_direction ((cx : ℚ) + 1 / 2) 1).1
        (initialize_dda_direction ((cy : ℚ) + 1 / 2) 0).1
        (initialize_dda_direction ((cx : ℚ) + 1 / 2) 1).2
        (initialize_dda_direction ((cy : ℚ) + 1 / 2) 0).2 false =
        some (true, cx + (e + 1 : ℕ) * 1) := by
      rw [init_zero, init_one, htcx, htcy]
      exact cast_scan_x e fuel hfuel _ _ _ _ false rfl (by simp) (by simp)
        (by
          intro i hi
          have h := hopen i hi
          simpa [truncQ_zero, truncQ_one] using h)
        (by
          have h := hwall
          simpa [truncQ_zero, truncQ_one] using h)
    have hres := @compute_wall_hit_eq fuel ⟨(cx : ℚ) + 1 / 2, (cy : ℚ) + 1 / 2⟩
      ⟨1, 0⟩ true (cx + (e + 1 : ℕ) * 1) hcast
    rw [hres]
    have hdist : chw_distance ⟨(cx : ℚ) + 1 / 2, (cy : ℚ) + 1 / 2⟩ ⟨1, 0⟩ true
        (cx + (e + 1 : ℕ) * 1) = ((e + 1 : ℕ) : ℚ) - 1 / 2 := by
      unfold chw_distance
      rw [if_pos rfl]
      show (((cx + (e + 1 : ℕ) * 1 : ℤ) : ℚ) - ((cx : ℚ) + 1 / 2) +
        (((1 - (initialize_dda_direction ((cx : ℚ) + 1 / 2) 1).2.on_grid).tdiv 2 : ℤ) : ℚ)) / 1 = _
      rw [init_one]
      show (((cx + (e + 1 : ℕ) * 1 : ℤ) : ℚ) - ((cx : ℚ) + 1 / 2) +
        (((1 - 1 : ℤ).tdiv 2 : ℤ) : ℚ)) / 1 = _
      have ht2 : ((1 : ℤ) - 1).tdiv 2 = 0 := by decide
      rw [ht2]
      push_cast
      ring
    have htx : chw_tx ⟨(cx : ℚ) + 1 / 2, (cy : ℚ) + 1 / 2⟩ ⟨1, 0⟩ true
        (cx + (e + 1 : ℕ) * 1) = (cy : ℚ) + 1 / 2 := by
      unfold chw_tx
      rw [if_pos rfl]
      show (cy : ℚ) + 1 / 2 + chw_distance _ _ _ _ * 0 = _
      ring
    rw [hdist, htx, floor_intCast_add_half]
    norm_num
  · -- direction (-1, 0)
    obtain ⟨e, rfl⟩ : ∃ e, d = e + 1 := ⟨d - 1, by omega⟩
    have hcast : cast_ray fuel
        (initialize_dda_direction ((cx : ℚ) + 1 / 2) (-1)).1
        (initialize_dda_direction ((cy : ℚ) + 1 / 2) 0).1
        (initialize_dda_direction ((cx : ℚ) + 1 / 2) (-1)).2
        (initialize_dda_direction ((cy : ℚ) + 1 / 2) 0).2 false =
        some (true, cx + (e + 1 : ℕ) * (-1)) := by
      rw [init_zero, init_neg_one, htcx, htcy]
      exact cast_scan_x e fuel hfuel _ _ _ _ false rfl (by simp) (by simp)
        (by
          intro i hi
          have h := hopen i hi
          simpa [truncQ_zero, truncQ_neg_one] using h)
        (by
          have h := hwall
          simpa [truncQ_zero, truncQ_neg_one] using h)
    have hres := @compute_wall_hit_eq fuel ⟨(cx : ℚ) + 1 / 2, (cy : ℚ) + 1 / 2⟩
      ⟨-1, 0⟩ true (cx + (e + 1 : ℕ) * (-1)) hcast
    rw [hres]
    have hdist : chw_distance ⟨(cx : ℚ) + 1 / 2, (cy : ℚ) + 1 / 2⟩ ⟨-1, 0⟩ true
        (cx + (e + 1 : ℕ) * (-1)) = ((e + 1 : ℕ) : ℚ) - 1 / 2 := by
      unfold chw_distance
      rw [if_pos rfl]
      show (((cx + (e + 1 : ℕ) * (-1) : ℤ) : ℚ) - ((cx : ℚ) + 1 / 2) +
        (((1 - (initialize_dda_direction ((cx : ℚ) + 1 / 2) (-1)).2.on_grid).tdiv 2 : ℤ) : ℚ)) /
          (-1) = _
      rw [init_neg_one]
      show (((cx + (e + 1 : ℕ) * (-1) : ℤ) : ℚ) - ((cx : ℚ) + 1 / 2) +
        (((1 - -1 : ℤ).tdiv 2 : ℤ) : ℚ)) / (-1) = _
      have ht2 : ((1 : ℤ) - -1).tdiv 2 = 1 := by decide
      rw [ht2]
      push_cast
      ring
    have htx : chw_tx ⟨(cx : ℚ) + 1 / 2, (cy : ℚ) + 1 / 2⟩ ⟨-1, 0⟩ true
        (cx + (e + 1 : ℕ) * (-1)) = (cy : ℚ) + 1 / 2 := by
      unfold chw_tx
      rw [if_pos rfl]
      show (cy : ℚ) + 1 / 2 + chw_distance _ _ _ _ * 0 = _
      ring
    rw [hdist, htx, floor_intCast_add_half]
    norm_num

/-- C2 witness: from the center of open cell `(5, 5)` facing `(0, 1)`, the
first wall column is 14 cells away and the cast returns `14 - 1/2`. -/
theorem axis_cast_exact_witness :
    compute_wall_hit 41 ⟨((5 : ℤ) : ℚ) + 1 / 2, ((5 : ℤ) : ℚ) + 1 / 2⟩ ⟨0, 1⟩ =
      some ⟨((14 : ℕ) : ℚ) - 1 / 2, 1 / 2⟩ :=
  axis_cast_exact 5 5 14 41 ⟨0, 1⟩ (by norm_num) (by norm_num) (by norm_num)
    (Or.inl rfl) (by decide) (by decide) (by norm_num)

/-- C2 counterexample to the claim as stated: from the center `(5.5, 5.5)`
of open cell `(5, 5)` along `(0, 1)`, the first wall is the border cell
`(5, 19)`, exactly 14 cells away, yet the returned distance is `27/2`, which
is neither the cell count `14` nor any integer — no axis-aligned cast from a
cell center can return an integer distance. -/
theorem axis_cast_not_integer :
    compute_wall_hit 41 ⟨11 / 2, 11 / 2⟩ ⟨0, 1⟩ = some ⟨27 / 2, 1 / 2⟩ ∧
    is_wallf ⟨11 / 2, 11 / 2⟩ = false ∧
    (∀ i : ℕ, i < 14 → is_wall ⟨5, 5 + (i : ℤ)⟩ = false) ∧
    is_wall ⟨5, 19⟩ = true ∧
    (27 / 2 : ℚ) ≠ (14 : ℚ) ∧ ¬∃ n : ℤ, (27 / 2 : ℚ) = (n : ℚ) := by
  refine ⟨by decide, by decide, by decide, by decide, by norm_num, ?_⟩
  rintro ⟨n, hn⟩
  have h2 : (27 : ℚ) = 2 * (n : ℚ) := by linarith
  have h3 : (27 : ℤ) = 2 * n := by exact_mod_cast h2
  omega

/-- C3: every wall hit that `compute_wall_hit` returns from an interior
position with a direction that has both components nonzero carries a
`surface_offset` (`tx`) in the half-open interval `[0, 1)`: the source
takes `tx - floor(tx)` as the final texture coordinate. -/
theorem surface_offset_unit_range (fuel : ℕ) (pos dir : vec2f) (h : wall_hit)
    (hx1 : 1 ≤ pos.x) (hx2 : pos.x < 20) (hy1 : 1 ≤ pos.y) (hy2 : pos.y < 19)
    (hdx : dir.x ≠ 0) (hdy : dir.y ≠ 0)
    (hres : compute_wall_hit fuel pos dir = some h) : 0 ≤ h.tx ∧ h.tx < 1 := by
  rcases e : cast_ray fuel (initialize_dda_direction pos.x dir.x).1
      (initialize_dda_direction pos.y dir.y).1 (initialize_dda_direction pos.x dir.x).2
      (initialize_dda_direction pos.y dir.y).2 false with _ | rg
  · have hnone : compute_wall_hit fuel pos dir = none := by
      simp only [compute_wall_hit]
      rw [e]
    rw [hnone] at hres
    exact Option.noConfusion hres
  · obtain ⟨r, g⟩ := rg
    rw [compute_wall_hit_eq e] at hres
    have hh : h = ⟨chw_distance pos dir r g,
        chw_tx pos dir r g - ⌊chw_tx pos dir r g⌋⟩ := by
      injection hres with h1
      exact h1.symm
    rw [hh]
    constructor
    · have hfl := Int.floor_le (chw_tx pos dir r g)
      show 0 ≤ chw_tx pos dir r g - ⌊chw_tx pos dir r g⌋
      linarith
    · have hfl := Int.lt_floor_add_one (chw_tx pos dir r g)
      show chw_tx pos dir r g - ⌊chw_tx pos dir r g⌋ < 1
      linarith

/-- C3 witness: the cast from `(5.5, 5.5)` along `(3/5, 4/5)` returns the
hit `(5/2, 1/2)`, and the theorem puts its offset in `[0, 1)`. -/
theorem surface_offset_unit_range_witness :
    0 ≤ (⟨5 / 2, 1 / 2⟩ : wall_hit).tx ∧ (⟨5 / 2, 1 / 2⟩ : wall_hit).tx < 1 :=
  surface_offset_unit_range 41 ⟨11 / 2, 11 / 2⟩ ⟨3 / 5, 4 / 5⟩ ⟨5 / 2, 1 / 2⟩
    (by norm_num) (by norm_num) (by norm_num) (by norm_num) (by norm_num)
    (by norm_num) (by decide)

/-- `player::move` preserves the viewer-not-in-wall invariant. -/
theorem move_keeps_not_wall (p : player) (v : vec2f)
    (hp : is_wallf p.pos_ = false) : is_wallf (p.move v).pos_ = false := by
  unfold player.move
  split
  · exact hp
  · next h => simpa using h

/-- C4: the viewer-not-in-wall invariant is preserved by every sequence of
walk, strafe and turn operations, and turn never modifies the position. -/
theorem player_not_in_wall_invariant (p : player) (ops : List player_op) (c s : ℚ)
    (hp : is_wallf p.pos_ = false) :
    is_wallf (p.apply_ops ops).pos_ = false ∧ (p.turn c s).pos_ = p.pos_ := by
  refine ⟨?_, rfl⟩
  induction ops generalizing p with
  | nil => exact hp
  | cons op rest ih =>
    show is_wallf (player.apply_ops (p.apply op) rest).pos_ = false
    apply ih
    cases op with
    | walk f => exact move_keeps_not_wall p _ hp
    | strafe f => exact move_keeps_not_wall p _ hp
    | turn c2 s2 => exact hp

/-- C4 witness: the invariant applied to the initial player and a concrete
walk, turn, strafe sequence. -/
theorem player_not_in_wall_invariant_witness :
    is_wallf (player.init.apply_ops
      [player_op.walk 1, player_op.turn 0 1, player_op.strafe (-1)]).pos_ = false ∧
    (player.init.turn 0 1).pos_ = player.init.pos_ :=
  player_not_in_wall_invariant player.init
    [player_op.walk 1, player_op.turn 0 1, player_op.strafe (-1)] 0 1 (by decide)

/-- C5: `walk` (resp. `strafe`) moves the position to
`position + forward (resp. right) * factor * run_speed` exactly when that
candidate is not a wall, and leaves the position exactly unchanged
otherwise; no other outcome exists. -/
theorem walk_strafe_collision (p : player) (factor : ℚ) :
    (p.walk factor).pos_ =
      (if is_wallf (p.pos_ + p.forward_ * factor * run_speed) then p.pos_
       else p.pos_ + p.forward_ * factor * run_speed) ∧
    (p.strafe factor).pos_ =
      (if is_wallf (p.pos_ + p.right_ * factor * run_speed) then p.pos_
       else p.pos_ + p.right_ * factor * run_speed) := by
  constructor
  · unfold player.walk player.move
    split
    · rfl
    · rfl
  · unfold player.strafe player.move
    split
    · rfl
    · rfl

/-- C6: the column geometry of `draw_column`: the projected height is
`screen_height / distance`, the whole-character count is its truncation,
reduced by one exactly when it is odd and smoothing is enabled
(`is_blocky = false`), the wall top is `(screen_height - whole) / 2 - 1`
(truncating division) and the wall bottom is `top + whole + 2`. -/
theorem draw_column_geometry (screen_height : ℤ) (hit : wall_hit) (is_blocky : Bool)
    (hH : 0 ≤ screen_height) (hd : 0 < hit.distance) :
    exact_wall_height screen_height hit = (screen_height : ℚ) / hit.distance ∧
    truncated_wall_height screen_height hit =
      truncQ ((screen_height : ℚ) / hit.distance) ∧
    num_whole_chars screen_height hit is_blocky =
      (if is_blocky = false ∧ Odd (truncated_wall_height screen_height hit) then
        truncated_wall_height screen_height hit - 1
      else truncated_wall_height screen_height hit) ∧
    wall_top screen_height hit is_blocky =
      (screen_height - num_whole_chars screen_height hit is_blocky).tdiv 2 - 1 ∧
    wall_bottom screen_height hit is_blocky =
      wall_top screen_height hit is_blocky + num_whole_chars screen_height hit is_blocky + 2 := by
  have hq0 : (0 : ℚ) ≤ (screen_height : ℚ) / hit.distance :=
    div_nonneg (by exact_mod_cast hH) (le_of_lt hd)
  have ht0 : 0 ≤ truncated_wall_height screen_height hit := by
    unfold truncated_wall_height exact_wall_height
    rw [truncQ_of_nonneg hq0]
    exact Int.floor_nonneg.mpr hq0
  refine ⟨rfl, rfl, ?_, rfl, rfl⟩
  unfold num_whole_chars
  cases is_blocky with
  | true => simp
  | false =>
    rw [if_neg (by simp)]
    by_cases hodd : Odd (truncated_wall_height screen_height hit)
    · rw [if_pos ⟨rfl, hodd⟩]
      have hm : (truncated_wall_height screen_height hit).tmod 2 = 1 := by
        rw [Int.tmod_eq_emod ht0 (by norm_num)]
        exact Int.odd_iff.mp hodd
      rw [hm]
    · rw [if_neg (fun hc => hodd hc.2)]
      have heven : Even (truncated_wall_height screen_height hit) :=
        (Int.even_or_odd _).resolve_right hodd
      have hm : (truncated_wall_height screen_height hit).tmod 2 = 0 := by
        rw [Int.tmod_eq_emod ht0 (by norm_num)]
        exact Int.even_iff.mp heven
      rw [hm]
      omega

/-- C6 witness: the geometry at `screen_height = 20`, `distance = 2`. -/
theorem draw_column_geometry_witness :
    exact_wall_height 20 ⟨2, 1 / 2⟩ = (20 : ℚ) / (2 : ℚ) ∧
    truncated_wall_height 20 ⟨2, 1 / 2⟩ = truncQ ((20 : ℚ) / (2 : ℚ)) ∧
    num_whole_chars 20 ⟨2, 1 / 2⟩ false =
      (if false = false ∧ Odd (truncated_wall_height 20 ⟨2, 1 / 2⟩) then
        truncated_wall_height 20 ⟨2, 1 / 2⟩ - 1
      else truncated_wall_height 20 ⟨2, 1 / 2⟩) ∧
    wall_top 20 ⟨2, 1 / 2⟩ false = (20 - num_whole_chars 20 ⟨2, 1 / 2⟩ false).tdiv 2 - 1 ∧
    wall_bottom 20 ⟨2, 1 / 2⟩ false =
      wall_top 20 ⟨2, 1 / 2⟩ false + num_whole_chars 20 ⟨2, 1 / 2⟩ false + 2 := by
  have h := draw_column_geometry 20 ⟨2, 1 / 2⟩ false (by norm_num) (by norm_num)
  exact h

/-- C7 (amended): with smoothing on and `projected_height` an exact even
integer, the computed `fraction` is `0` and the two cap writes are the
blank glyph (not inverted) at the top cap row and the `7/8` partial-block
glyph (`fractional_block 1` indexes entry 7 of the table, not a full
block) inverted at the bottom cap row — so a partial glyph row is emitted,
and the output is not identical to the smoothing-disabled output, which
draws the top cap row as inverted solid wall and the bottom cap row as
the floor glyph. -/
theorem even_height_fraction_zero (x screen_height : ℤ) (hit : wall_hit) (k : ℤ)
    (hd : 0 < hit.distance) (he : exact_wall_height screen_height hit = 2 * (k : ℚ)) :
    fraction screen_height hit false = 0 ∧
    fractional_block (fraction screen_height hit false) = " " ∧
    fractional_block (1 - fraction screen_height hit false) = "▇" ∧
    (0 ≤ wall_top screen_height hit false →
      column_caps x screen_height hit false =
        [⟨x, wall_top screen_height hit false, " ", false⟩,
         ⟨x, wall_bottom screen_height hit false, "▇", true⟩]) := by
  have ht : truncated_wall_height screen_height hit = 2 * k := by
    unfold truncated_wall_height
    rw [he]
    have hcast : (2 * (k : ℚ)) = ((2 * k : ℤ) : ℚ) := by push_cast; ring
    rw [hcast, truncQ_intCast]
  have hn : num_whole_chars screen_height hit false = 2 * k := by
    unfold num_whole_chars
    rw [ht, if_neg (by simp), Int.mul_tmod_right]
    omega
  have hf : fraction screen_height hit false = 0 := by
    unfold fraction
    rw [he, hn]
    push_cast
    ring
  have h1 : (1 : ℚ) - fraction screen_height hit false = 1 := by rw [hf]; ring
  have hfb0 : fractional_block (fraction screen_height hit false) = " " := by
    rw [hf]
    decide
  have hfb1 : fractional_block (1 - fraction screen_height hit false) = "▇" := by
    rw [h1]
    decide
  refine ⟨hf, hfb0, hfb1, ?_⟩
  intro htop
  unfold column_caps
  rw [if_pos ⟨rfl, htop⟩, hfb0, hfb1]

/-- C7 witness: at `screen_height = 20`, `distance = 2` (projected height
exactly 10), the cap condition holds and the two caps are the blank glyph
and the inverted `7/8` glyph. -/
theorem even_height_fraction_zero_witness :
    fraction 20 ⟨2, 1 / 2⟩ false = 0 ∧
    column_caps 0 20 ⟨2, 1 / 2⟩ false =
      [⟨0, wall_top 20 ⟨2, 1 / 2⟩ false, " ", false⟩,
       ⟨0, wall_bottom 20 ⟨2, 1 / 2⟩ false, "▇", true⟩] :=
  ⟨(even_height_fraction_zero 0 20 ⟨2, 1 / 2⟩ 5 (by norm_num) (by decide)).1,
   (even_height_fraction_zero 0 20 ⟨2, 1 / 2⟩ 5 (by norm_num) (by decide)).2.2.2
     (by decide)⟩

/-- C7 counterexample to the claim as stated: at `screen_height = 20`,
`distance = 2` (projected height exactly 10, even), smoothing emits the
`7/8` partial-block glyph at the bottom cap row 16 — a partial glyph row —
while the smoothing-disabled output draws row 4 (the top cap row) as
inverted solid wall and row 16 as the floor glyph, so the two outputs
differ. -/
theorem even_height_not_equivalent :
    exact_wall_height 20 ⟨2, 1 / 2⟩ = 10 ∧
    fraction 20 ⟨2, 1 / 2⟩ false = 0 ∧
    (⟨0, 16, "▇", true⟩ : cell_write) ∈ draw_column 0 20 ⟨2, 1 / 2⟩ false ∧
    "▇" ∈ fb_chars.drop 1 ∧
    (⟨0, 4, " ", false⟩ : cell_write) ∈ draw_column 0 20 ⟨2, 1 / 2⟩ false ∧
    (⟨0, 4, " ", true⟩ : cell_write) ∈ draw_column 0 20 ⟨2, 1 / 2⟩ true ∧
    (⟨0, 16, ".", false⟩ : cell_write) ∈ draw_column 0 20 ⟨2, 1 / 2⟩ true ∧
    draw_column 0 20 ⟨2, 1 / 2⟩ false ≠ draw_column 0 20 ⟨2, 1 / 2⟩ true := by
  refine ⟨by decide, by decide, by decide, by decide, by decide, by decide, by decide,
    by decide⟩

/-- C8: for every fraction in the closed interval `[0, 1]` — including the
boundary value `1` that the bottom cap passes as `1 - fraction` — the
glyph index `truncate(x * (8 - 1e-6))` lies within the bounds of the
8-entry table. -/
theorem fractional_block_index_bounds (x : ℚ) (h0 : 0 ≤ x) (h1 : x ≤ 1) :
    0 ≤ fb_index x ∧ fb_index x < 8 ∧ fb_chars.length = 8 := by
  have harg0 : (0 : ℚ) ≤ x * (8 - 1 / 1000000) := mul_nonneg h0 (by norm_num)
  unfold fb_index
  rw [truncQ_of_nonneg harg0]
  refine ⟨Int.floor_nonneg.mpr harg0, ?_, rfl⟩
  apply Int.floor_lt.mpr
  push_cast
  nlinarith

/-- C8 witness: the bounds at the boundary value `x = 1`. -/
theorem fractional_block_index_bounds_witness :
    0 ≤ fb_index 1 ∧ fb_index 1 < 8 ∧ fb_chars.length = 8 :=
  fractional_block_index_bounds 1 (by norm_num) (le_refl 1)

/-- Arithmetic core of the `block_between` clamping. -/
theorem minmax_helper {a b i : ℤ} (h1 : 0 ≤ a) (hab : i < b - min a b) (hi0 : 0 ≤ i) :
    0 ≤ min a b + i ∧ min a b + i < b := by
  rcases min_choice a b with h | h <;> rw [h] at hab ⊢
  · constructor
    · omega
    · omega
  · omega

/-- Every row produced by the clamped `block_between` range lies on the
screen. -/
theorem block_between_mem {screen_height mn mx r : ℤ}
    (hr : r ∈ block_between screen_height mn mx) : 0 ≤ r ∧ r < screen_height := by
  unfold block_between at hr
  obtain ⟨i, hi, rfl⟩ := List.mem_map.mp hr
  have hi2 := List.mem_range.mp hi
  have h2 : min screen_height mx ≤ screen_height := min_le_left _ _
  have h3 : min (max 0 mn) (min screen_height mx) ≤ min screen_height mx := min_le_right _ _
  have h5 : (i : ℤ) <
      min screen_height mx - min (max 0 mn) (min screen_height mx) := by
    have hnn := Int.toNat_of_nonneg (sub_nonneg.mpr h3)
    have hcast : (i : ℤ) <
        ((min screen_height mx - min (max 0 mn) (min screen_height mx)).toNat : ℤ) := by
      exact_mod_cast hi2
    rw [hnn] at hcast
    exact hcast
  have h6 := minmax_helper (le_max_left 0 mn) h5 (by exact_mod_cast Nat.zero_le i)
  exact ⟨h6.1, lt_of_lt_of_le h6.2 h2⟩

/-- The truncated projected height is nonnegative. -/
theorem truncated_nonneg (screen_height : ℤ) (hit : wall_hit) (hH : 0 ≤ screen_height)
    (hd : 0 < hit.distance) : 0 ≤ truncated_wall_height screen_height hit := by
  have hq0 : (0 : ℚ) ≤ (screen_height : ℚ) / hit.distance :=
    div_nonneg (by exact_mod_cast hH) (le_of_lt hd)
  unfold truncated_wall_height exact_wall_height
  rw [truncQ_of_nonneg hq0]
  exact Int.floor_nonneg.mpr hq0

/-- The whole-character count is nonnegative. -/
theorem num_whole_nonneg (screen_height : ℤ) (hit : wall_hit) (is_blocky : Bool)
    (hH : 0 ≤ screen_height) (hd : 0 < hit.distance) :
    0 ≤ num_whole_chars screen_height hit is_blocky := by
  have ht0 := truncated_nonneg screen_height hit hH hd
  unfold num_whole_chars
  cases is_blocky with
  | true => simpa using ht0
  | false =>
    rw [if_neg (by simp)]
    have hm0 : 0 ≤ (truncated_wall_height screen_height hit).tmod 2 :=
      Int.tmod_nonneg 2 ht0
    have hm1 : (truncated_wall_height screen_height hit).tmod 2 < 2 :=
      Int.tmod_lt_of_pos _ (by norm_num)
    rcases eq_or_lt_of_le ht0 with h | h
    · rw [← h]
      decide
    · omega

/-- When the cap row `(H - n).tdiv 2 - 1` is on screen, it lies strictly
below row `H` and the bottom cap row lies at or above no further than `H`. -/
theorem tdiv_caps_bounds {H n : ℤ} (hH : 1 ≤ H) (hn : 0 ≤ n)
    (htop : 0 ≤ (H - n).tdiv 2 - 1) :
    (H - n).tdiv 2 - 1 < H ∧ ((H - n).tdiv 2 - 1) + n + 2 ≤ H := by
  have hd1 : 1 ≤ (H - n).tdiv 2 := by omega
  have hm2 : 2 ≤ H - n := by
    by_contra hc
    push_neg at hc
    have hle : (H - n).tdiv 2 ≤ 0 := by
      rcases le_or_lt (H - n) 0 with h | h
      · have h1 : 0 ≤ (-(H - n)).tdiv 2 := Int.tdiv_nonneg (by omega) (by norm_num)
        have h2 := Int.neg_tdiv (H - n) 2
        omega
      · have hm1 : H - n = 1 := by omega
        rw [hm1]
        decide
    omega
  have he : (H - n).tdiv 2 = (H - n) / 2 := Int.tdiv_eq_ediv (by omega) (by norm_num)
  omega

/-- C9 (amended): every cell write of `draw_column` has its row in the
closed interval `[0, screen_height]`, and only the bottom fractional cap
can touch row `screen_height` itself — the row just below the visible
screen — which it does exactly when the wall spans all but two rows;
every other write stays within `[0, screen_height)`. -/
theorem draw_column_rows_bounded (x screen_height : ℤ) (hit : wall_hit) (is_blocky : Bool)
    (hH : 1 ≤ screen_height) (hd : 0 < hit.distance) :
    (∀ w ∈ draw_column x screen_height hit is_blocky, 0 ≤ w.row ∧ w.row ≤ screen_height) ∧
    (∀ w ∈ draw_column x screen_height hit is_blocky, w.row = screen_height →
      is_blocky = false ∧ w.row = wall_bottom screen_height hit is_blocky ∧
      w.glyph = fractional_block (1 - fraction screen_height hit is_blocky) ∧
      w.inverted = true) := by
  have hn0 : 0 ≤ num_whole_chars screen_height hit is_blocky :=
    num_whole_nonneg screen_height hit is_blocky (by omega) hd
  have hmem : ∀ w ∈ draw_column x screen_height hit is_blocky,
      (∃ y, (0 ≤ y ∧ y < screen_height) ∧ w.row = y) ∨
      ((is_blocky = false ∧ 0 ≤ wall_top screen_height hit is_blocky) ∧
        (w = ⟨x, wall_top screen_height hit is_blocky,
          fractional_block (fraction screen_height hit is_blocky), false⟩ ∨
         w = ⟨x, wall_bottom screen_height hit is_blocky,
          fractional_block (1 - fraction screen_height hit is_blocky), true⟩)) := by
    intro w hw
    unfold draw_column at hw
    simp only [List.mem_append, List.mem_map] at hw
    rcases hw with ((⟨y, hy, rfl⟩ | ⟨y, hy, rfl⟩) | ⟨y, hy, rfl⟩) | hcap
    · exact Or.inl ⟨y, block_between_mem hy, rfl⟩
    · exact Or.inl ⟨y, block_between_mem hy, rfl⟩
    · exact Or.inl ⟨y, block_between_mem hy, rfl⟩
    · unfold column_caps at hcap
      split at hcap
      · next hc =>
        simp only [List.mem_cons, List.not_mem_nil, or_false] at hcap
        rcases hcap with rfl | rfl
        · exact Or.inr ⟨hc, Or.inl rfl⟩
        · exact Or.inr ⟨hc, Or.inr rfl⟩
      · simp at hcap
  have hcapb := fun (htop : 0 ≤ wall_top screen_height hit is_blocky) =>
    @tdiv_caps_bounds screen_height (num_whole_chars screen_height hit is_blocky) hH hn0 htop
  constructor
  · intro w hw
    rcases hmem w hw with ⟨y, hy, hrow⟩ | ⟨hc, hcap⟩
    · rw [hrow]
      omega
    · have hb := hcapb hc.2
      rcases hcap with rfl | rfl
      · show 0 ≤ wall_top screen_height hit is_blocky ∧
          wall_top screen_height hit is_blocky ≤ screen_height
        unfold wall_top at hc ⊢
        omega
      · show 0 ≤ wall_bottom screen_height hit is_blocky ∧
          wall_bottom screen_height hit is_blocky ≤ screen_height
        unfold wall_bottom
        unfold wall_top at hc ⊢
        omega
  · intro w hw hrow
    rcases hmem w hw with ⟨y, hy, hrow2⟩ | ⟨hc, hcap⟩
    · omega
    · have hb := hcapb hc.2
      rcases hcap with rfl | rfl
      · exfalso
        have hteq : wall_top screen_height hit is_blocky = screen_height := hrow
        unfold wall_top at hteq
        omega
      · exact ⟨hc.1, rfl, rfl, rfl⟩

/-- C9 witness: the row bound applied to the bottom cap write of the column
for `screen_height = 12`, `distance = 6/5`. -/
theorem draw_column_rows_bounded_witness :
    0 ≤ (⟨0, 12, "▇", true⟩ : cell_write).row ∧
      (⟨0, 12, "▇", true⟩ : cell_write).row ≤ 12 :=
  (draw_column_rows_bounded 0 12 ⟨6 / 5, 1 / 2⟩ false (by norm_num) (by norm_num)).1
    ⟨0, 12, "▇", true⟩ (by decide)

/-- C9 counterexample to the claim as stated: at `screen_height = 12`,
`distance = 6/5` (projected height exactly 10), smoothing emits the bottom
fractional cap at row `12 = screen_height`, outside `[0, 12)`. -/
theorem draw_column_row_at_height :
    (⟨0, 12, "▇", true⟩ : cell_write) ∈ draw_column 0 12 ⟨6 / 5, 1 / 2⟩ false ∧
    ¬((12 : ℤ) < 12) :=
  ⟨by decide, by norm_num⟩

/-- Rotating a vector by an angle and then by its negation restores the
vector exactly over the reals. -/
theorem rotateR_rotateR_neg (v : ℝ × ℝ) (radians : ℝ) :
    rotateR (rotateR v radians) (-radians) = v := by
  obtain ⟨a, b⟩ := v
  unfold rotateR
  simp only [Real.cos_neg, Real.sin_neg, Prod.mk.injEq]
  constructor
  · linear_combination a * (Real.sin_sq_add_cos_sq radians)
  · linear_combination b * (Real.sin_sq_add_cos_sq radians)

/-- C10: `turn(factor)` followed by `turn(-factor)` restores both
orientation vectors of the player exactly, over real arithmetic. -/
theorem turn_turn_neg_restores (p : playerR) (factor : ℝ) :
    ((p.turn factor).turn (-factor)).forward_ = p.forward_ ∧
    ((p.turn factor).turn (-factor)).right_ = p.right_ := by
  unfold playerR.turn
  constructor
  · show rotateR (rotateR p.forward_ (factor * turn_speedR)) (-factor * turn_speedR) =
      p.forward_
    rw [show (-factor * turn_speedR) = -(factor * turn_speedR) by ring]
    exact rotateR_rotateR_neg _ _
  · show rotateR (rotateR p.right_ (factor * turn_speedR)) (-factor * turn_speedR) =
      p.right_
    rw [show (-factor * turn_speedR) = -(factor * turn_speedR) by ring]
    exact rotateR_rotateR_neg _ _
